import Mathlib

/-!
Shallow embedding of `vllm/model_executor/layers/quantization/quark/schemes/
quark_w4a4_mxfp4.py` (class `QuarkW4A4MXFP4`), together with theorems checking
the natural-language specification of the scheme: mode selection, weight-storage
allocation, the post-load state transform, the emulated forward path, the
asm-kernel dispatch arithmetic and the scale block-shuffle permutation.
-/

namespace QuarkW4A4MXFP4

/-! ### Mode selection (`__init__`, line 44) -/

/-- Execution mode of the scheme: emulated dequant-matmul vs native kernels. -/
inductive ExecutionMode where
  | Emulate
  | Native
  deriving DecidableEq, Repr

/-- `self.emulate = not current_platform.supports_mx() or VLLM_QUARK_EMU_MEM_OPT`
(quark_w4a4_mxfp4.py line 44), phrased as the resulting mode. -/
def selectMode (supportsMx memOpt : Bool) : ExecutionMode :=
  if !supportsMx || memOpt then .Emulate else .Native

/-! ### Weight storage allocation (`create_weights`, lines 117-151)

The source allocates
  `weight : (sum(output_partition_sizes), input_size_per_partition // 2)` and
  `weight_scale : (sum(output_partition_sizes), input_size_per_partition // OCP_MX_BLOCK_SIZE)`
with Python floor division and no divisibility check, and records
`layer.logical_widths = output_partition_sizes`. -/

/-- Modelled from the spec: `OCP_MX_BLOCK_SIZE` is imported from
`mxfp4_utils`, a module not present in the sources; the spec's glossary fixes
the OCP MX block size at 32. -/
def OCP_MX_BLOCK_SIZE : Nat := 32

/-- The state `create_weights` registers on the layer: the two tensor shapes
(rows, cols) and the recorded logical widths. -/
structure CreatedWeights where
  logicalWidths : List Nat
  weightShape : Nat × Nat
  weightScaleShape : Nat × Nat
  deriving DecidableEq, Repr

/-- `create_weights` (lines 117-151): `output_size_per_partition = sum(...)`;
weight shape `(output_size, input_size // 2)`; scale shape
`(output_size, input_size // OCP_MX_BLOCK_SIZE)`. Nat division is Python's
floor division; the source performs no divisibility validation. -/
def create_weights (output_partition_sizes : List Nat)
    (input_size_per_partition : Nat) : CreatedWeights :=
  { logicalWidths := output_partition_sizes
    weightShape := (output_partition_sizes.sum, input_size_per_partition / 2)
    weightScaleShape :=
      (output_partition_sizes.sum, input_size_per_partition / OCP_MX_BLOCK_SIZE) }

/-! ### Asm-kernel large-batch dispatch (`apply_weights`, lines 170-186)

For `M > 128` with the asm flag set, the source allocates
`y = torch.empty((M + 255) // 256 * 256, out_features)` and returns `y[:M]`. -/

/-- Row count of the intermediate buffer `y` (line 178):
`(M + 255) // 256 * 256`. -/
def asmIntermediateRows (M : Nat) : Nat := (M + 255) / 256 * 256

/-- Row count of `y[:M]`: Python slicing takes `min M (rows of y)`. -/
def asmReturnedRows (M : Nat) : Nat := min M (asmIntermediateRows M)

/-! ### Asm-kernel mid-batch scale reshapes (`apply_weights`, lines 187-207)

For the asm flag with `M <= 128`, the source reshapes `x_s` with
`x_s.view(sm // 32, sn * 32)` when `M >= 32`, and always reshapes the weight
scale with `layer.weight_scale.view(smw // 32, snw * 32)`; `torch.view`
succeeds exactly when the element counts agree, else raises. -/

/-- `torch.Tensor.view` on a contiguous 2-d tensor of shape `(m, n)` into
shape `(r, c)`: defined iff the element counts agree. -/
def torchView2 (m n r c : Nat) : Option (Nat × Nat) :=
  if m * n = r * c then some (r, c) else none

/-- The pair of scale reshapes performed by the `M <= 128` asm branch, given
the activation-scale shape `(sm, sn)`, the weight-scale shape `(smw, snw)` and
the batch size `M`: `x_s.view(sm // 32, sn * 32)` (only when `M >= 32`) and
`layer.weight_scale.view(smw // 32, snw * 32)` (always). `none` means a
raised reshape error. -/
def asmMidBatchScaleViews (M sm sn smw snw : Nat) :
    Option ((Nat × Nat) × (Nat × Nat)) := do
  let xs ← if 32 ≤ M then torchView2 sm sn (sm / 32) (sn * 32)
           else pure (sm, sn)
  let ws ← torchView2 smw snw (smw / 32) (snw * 32)
  return (xs, ws)

/-! ### Module import guard and construction (lines 17-31, 38-51)

The module-level `try` block imports the aiter bindings, then assigns
`VLLM_TRITON_FP4_GEMM_USE_ASM` and finally `VLLM_QUARK_EMU_MEM_OPT`; on
`ImportError` it only assigns `dynamic_mxfp4_quant = gemm_afp4wfp4 = None`,
leaving `VLLM_QUARK_EMU_MEM_OPT` unbound. `__init__` line 44 evaluates
`not current_platform.supports_mx() or VLLM_QUARK_EMU_MEM_OPT` with Python
short-circuit, so the env-flag name is looked up only when `supports_mx()`
is true. -/

/-- Outcome of the module-level `try` block: on success both env flags were
read and the aiter bindings are non-`None`; on `ImportError` the bindings are
`None` and the name `VLLM_QUARK_EMU_MEM_OPT` is left unbound. -/
inductive ImportOutcome where
  | ok (memOptEnv asmEnv : Bool)
  | failed
  deriving DecidableEq, Repr

/-- Result of `QuarkW4A4MXFP4.__init__`. -/
inductive InitResult where
  /-- Construction succeeded with the given value of `self.emulate`. -/
  | success (emulate : Bool)
  /-- `NameError: name 'VLLM_QUARK_EMU_MEM_OPT' is not defined` at line 44. -/
  | nameError
  /-- The `NotImplementedError` of lines 48-51 naming the AITER package. -/
  | aiterNotImplemented
  deriving DecidableEq, Repr

/-- `__init__` (lines 38-51): line 44 computes `self.emulate` with Python
short-circuit evaluation; lines 45-51 raise `NotImplementedError` when
`not self.emulate` and a binding is `None`. After a successful import
neither binding is `None`; after a failed import the line-44 lookup of the
unbound `VLLM_QUARK_EMU_MEM_OPT` raises `NameError` unless short-circuited
away by `supports_mx()` being false. -/
def schemeInit (supportsMx : Bool) (imp : ImportOutcome) : InitResult :=
  if !supportsMx then
    -- `not supports_mx()` is true: `or` short-circuits, the env flag is not
    -- read, `self.emulate = True`, and the lines 45-51 check is skipped.
    .success true
  else
    match imp with
    | .failed => .nameError
    | .ok memOptEnv _ =>
      let emulate := memOptEnv
      if !emulate then
        -- import succeeded, so `dynamic_mxfp4_quant`/`gemm_afp4wfp4` are not
        -- `None`: the lines 45-51 condition is false.
        .success false
      else
        .success true

/-! ### Post-load transform, emulate branch (lines 57-100)

In the emulate branch the source rewraps `layer.weight_scale`, builds a local
`weight_quantizer` bound to `layer.weight_scale.data`, then either replaces
`layer.weight` by the materialized dequantized weight (flag unset) or stores
the quantizer on `self` (flag set). The line `layer.weight_scale = None`
(line 96) is commented out, so the scale parameter stays registered in both
branches. -/

/-- Symbolic tensor values, tracking the provenance of the layer's
parameters. -/
inductive TensorVal where
  /-- The loaded packed uint8 weight. -/
  | packedWeight
  /-- The loaded uint8 block scale. -/
  | rawScale
  /-- `weight_quantizer(w).to(out_dtype)` (line 91): the materialized
  dequantized weight. -/
  | quantizerApplied (w : TensorVal)
  deriving DecidableEq, Repr

/-- The state touched by the emulate branch of
`process_weights_after_loading`: the layer's `weight` and `weight_scale`
parameters and the scheme's optionally-stored lazy quantizer (recorded as
the scale tensor it is bound to). -/
structure EmulateState where
  weight : TensorVal
  weightScale : Option TensorVal
  weightQuantizer : Option TensorVal
  deriving DecidableEq, Repr

/-- The layer state right after weight loading, before the post-load
transform: packed weight and raw scale registered, no quantizer stored. -/
def loadedState : EmulateState :=
  { weight := .packedWeight, weightScale := some .rawScale,
    weightQuantizer := none }

/-- Emulate branch of `process_weights_after_loading` (lines 61-100), as a
state transformer parameterized by the `VLLM_QUARK_EMU_MEM_OPT` flag. A
local quantizer bound to `layer.weight_scale` is built (lines 74-86); then
lines 89-95 branch on the flag. Line 96 (`layer.weight_scale = None`) is
commented out in the source, so `weightScale` is unchanged in both
branches; `torch.cuda.empty_cache()` (line 100) frees no tensor that is
still referenced. -/
def processEmulate (memOpt : Bool) (l : EmulateState) : EmulateState :=
  if !memOpt then
    -- lines 90-93: the materialized dequantized weight replaces
    -- `layer.weight`; the local quantizer is dropped.
    { weight := .quantizerApplied l.weight, weightScale := l.weightScale,
      weightQuantizer := l.weightQuantizer }
  else
    -- line 95: `self.weight_quantizer = weight_quantizer` (bound to the
    -- raw scale); `layer.weight` keeps the packed bytes.
    { weight := l.weight, weightScale := l.weightScale,
      weightQuantizer := l.weightScale }

/-- Whether the state holds a resolved (materialized) dequantized weight. -/
def hasResolvedWeight (l : EmulateState) : Bool :=
  match l.weight with
  | .quantizerApplied _ => true
  | _ => false

/-- Whether the state holds the lazy quantizer together with the raw
scale. -/
def hasLazyQuantizerAndScale (l : EmulateState) : Bool :=
  l.weightQuantizer.isSome && l.weightScale.isSome

/-! ### Emulated forward trace (`apply_weights`, lines 159-168)

The emulate branch computes
`dq_w = dequant_mxfp4(layer.weight, layer.weight_scale, x.dtype)`,
`x = quant_dequant_mxfp4(x)`, and returns `F.linear(x, dq_w, bias)`. It
reads only `layer.weight` and `layer.weight_scale`; `self.weight_quantizer`
is never consulted. -/

/-- Symbolic expression for the tensors computed by the emulated forward
pass. -/
inductive MatExpr where
  /-- The activation input `x`. -/
  | input
  /-- A stored layer tensor. -/
  | tensor (t : TensorVal)
  /-- `dequant_mxfp4(w, s, x.dtype)`. -/
  | dequant (w s : MatExpr)
  /-- `quant_dequant_mxfp4(x)`. -/
  | quantDequant (x : MatExpr)
  /-- `F.linear(x, w, bias)`. -/
  | linearF (x w : MatExpr) (bias : Option MatExpr)

/-- Emulate branch of `apply_weights` (lines 159-168) as the expression it
returns, given the layer state. `none` models the failure that would occur
if `layer.weight_scale` had been deleted. -/
def applyWeightsEmulateTrace (l : EmulateState) (bias : Option MatExpr) :
    Option MatExpr :=
  l.weightScale.map fun s =>
    .linearF (.quantDequant .input) (.dequant (.tensor l.weight) (.tensor s))
      bias

/-! ### Dense matrix semantics of the emulate forward pass
(`apply_weights`, lines 159-168)

Matrices are shape-annotated entry functions with rational entries. The
imported codec functions `dequant_mxfp4` and `quant_dequant_mxfp4` live in
`mxfp4_utils`, which is not among the sources, so the embedding of
`apply_weights` takes them as parameters, exactly as the source imports
them. -/

/-- A dense 2-d tensor: shape plus entry function (row-major semantics). -/
structure Mat where
  rows : Nat
  cols : Nat
  entry : Nat → Nat → ℚ

/-- `torch.nn.functional.linear(x, w, bias) = x @ w.T + bias`: output shape
`(x.rows, w.rows)`, summing over the activation width. -/
def Flinear (x w : Mat) (bias : Option (Nat → ℚ)) : Mat :=
  { rows := x.rows
    cols := w.rows
    entry := fun i j =>
      (∑ k ∈ Finset.range x.cols, x.entry i k * w.entry j k) +
        bias.elim 0 fun b => b j }

/-- Emulate branch of `apply_weights` (lines 159-168):
`dq_w = dequant_mxfp4(layer.weight, layer.weight_scale, x.dtype)`;
`x = quant_dequant_mxfp4(x)`; `return F.linear(x, dq_w, bias)`. The two
codec functions are the imported `mxfp4_utils` functions, passed as
parameters. -/
def apply_weights_emulate (dequant_mxfp4 : Mat → Mat → Mat)
    (quant_dequant_mxfp4 : Mat → Mat)
    (weight weight_scale x : Mat) (bias : Option (Nat → ℚ)) : Mat :=
  let dq_w := dequant_mxfp4 weight weight_scale
  let xq := quant_dequant_mxfp4 x
  Flinear xq dq_w bias

/-- Modelled from the spec: the reference output of the emulate path — "a
reference dense matmul of the bit-exact dequantized weight against the
quantize-dequantized activations, plus bias". Entry `(i, j)` is
`Σ_k qd(x)[i,k] · dq(w,s)[j,k] + bias[j]`, the batch row count comes from
`x` and the output column count is the dequantized weight's row count; the
contraction ranges over the activation width. -/
def referenceEmulateOutput (dequant_mxfp4 : Mat → Mat → Mat)
    (quant_dequant_mxfp4 : Mat → Mat)
    (weight weight_scale x : Mat) (bias : Option (Nat → ℚ)) : Mat :=
  { rows := x.rows
    cols := (dequant_mxfp4 weight weight_scale).rows
    entry := fun i j =>
      (∑ k ∈ Finset.range x.cols,
          (quant_dequant_mxfp4 x).entry i k *
            (dequant_mxfp4 weight weight_scale).entry j k) +
        bias.elim 0 fun b => b j }

/-! ### Asm-path scale block shuffle (`process_weights_after_loading`,
lines 102-111)

With the asm flag set, the native branch shuffles the weight scale:
`view(sm // 32, 2, 16, sn // 8, 2, 4, 1)`,
`permute(0, 3, 5, 2, 4, 1, 6).contiguous()`, `view(sm, sn)`. For
`sm = 32 * p`, `sn = 8 * q`, the row-major strides of the 7-d view are
`(256q, 128q, 8q, 8, 4, 1)` (the size-1 trailing axis carries no stride)
and those of the permuted layout `(p, q, 4, 16, 2, 2, 1)` are
`(256q, 256, 64, 4, 2, 1)`. Writing the coordinates of the original view
as `(a0, a1, a2, a3, a4, a5, 0)`, flat position
`g = 256q·a0 + 256·a3 + 64·a5 + 4·a2 + 2·a4 + a1` of the shuffled matrix
holds the entry at flat position
`f = 256q·a0 + 128q·a1 + 8q·a2 + 8·a3 + 4·a4 + a5` of the original. -/

/-- Flat source index of the block shuffle: entry `g` of the shuffled
matrix is entry `shuffleSrc q g` of the original (columns `8 * q`). The
digits `(a0, a1, a2, a3, a4, a5)` of `g` in the shuffled layout are read
off with strides `(256q, 1, 4, 256, 2, 64)` and reassembled with the
original strides `(256q, 128q, 8q, 8, 4, 1)`. -/
def shuffleSrc (q g : Nat) : Nat :=
  256 * q * (g / (256 * q)) + 128 * q * (g % 2) + 8 * q * (g % 64 / 4) +
    8 * (g % (256 * q) / 256) + 4 * (g % 4 / 2) + g % 256 / 64

/-- Inverse flat index map of the block shuffle: the entry that the shuffle
reads from flat position `f` of the original lands at flat position
`shuffleDst q f` of the shuffled matrix. -/
def shuffleDst (q f : Nat) : Nat :=
  256 * q * (f / (256 * q)) + 256 * (f % (8 * q) / 8) + 64 * (f % 4) +
    4 * (f % (128 * q) / (8 * q)) + 2 * (f % 8 / 4) +
    f % (256 * q) / (128 * q)

/-- The block shuffle acting on a flat row-major scale matrix with `8 * q`
columns. -/
def shuffleScale {α : Type} (q : Nat) (A : Nat → α) : Nat → α :=
  fun g => A (shuffleSrc q g)

/-- The inverse block shuffle on a flat row-major matrix with `8 * q`
columns. -/
def unshuffleScale {α : Type} (q : Nat) (B : Nat → α) : Nat → α :=
  fun f => B (shuffleDst q f)

end QuarkW4A4MXFP4

namespace QuarkW4A4MXFP4

/-- Two `Mat`s with the same shape and entries are equal. -/
theorem Mat.ext_eq (a b : Mat) (hr : a.rows = b.rows) (hc : a.cols = b.cols)
    (he : a.entry = b.entry) : a = b := by
  cases a; cases b; simp_all

/-! ### Theorems: mode selection (C3) -/

/-- C3: mode selection is the pure boolean function of
(hardware_supports_native, memory_opt_flag): the mode is `Native` exactly when
the platform supports native MX and the memory-optimization flag is unset, it
is `Emulate` exactly when the platform lacks support or the flag is set, and
`supportsMx = false` forces `Emulate` for either flag value. -/
theorem selectMode_spec :
    ∀ hw mem : Bool,
      (selectMode hw mem = .Native ↔ hw = true ∧ mem = false) ∧
      (selectMode hw mem = .Emulate ↔ (hw = false ∨ mem = true)) ∧
      selectMode false mem = .Emulate := by
  decide

/-! ### Theorems: weight storage allocation (C2, C5) -/

/-- C2 counterexample: at `input_size_per_partition = 33` (odd, and not a
multiple of the block size 32) `create_weights` raises nothing; it silently
allocates the truncated shapes `(4, 16)` and `(4, 1)` — `2 * 16 ≠ 33` and
`32 * 1 ≠ 33` — contradicting the claim that it fails with an InvalidShape
error instead of allocating truncated shapes. -/
theorem create_weights_odd_input_truncates :
    create_weights [4] 33 =
      { logicalWidths := [4], weightShape := (4, 16),
        weightScaleShape := (4, 1) } ∧
    2 * 16 ≠ 33 ∧ 32 * 1 ≠ 33 := by
  refine ⟨?_, by decide, by decide⟩
  rfl

/-- C2 amended: `create_weights` performs no divisibility validation at all;
for every `output_partition_sizes` and every `input_size_per_partition` —
odd or not a multiple of the block size included — it totally returns the
floor-divided shapes `(sum, n / 2)` and `(sum, n / 32)`, so odd inputs yield
silently truncated allocations (`2 * (n / 2) < n`). -/
theorem create_weights_never_fails :
    ∀ (ops : List Nat) (n : Nat),
      create_weights ops n =
        { logicalWidths := ops, weightShape := (ops.sum, n / 2),
          weightScaleShape := (ops.sum, n / 32) } ∧
      (n % 2 = 1 → 2 * ((create_weights ops n).weightShape.2) < n) := by
  intro ops n
  refine ⟨rfl, fun h => ?_⟩
  show 2 * (n / 2) < n
  omega

/-- Witness for `create_weights_never_fails` at `ops = [4]`, `n = 33`. -/
theorem create_weights_never_fails_witness :
    33 % 2 = 1 ∧
    create_weights [4] 33 =
      { logicalWidths := [4], weightShape := ([4].sum, 33 / 2),
        weightScaleShape := ([4].sum, 33 / 32) } ∧
    2 * ((create_weights [4] 33).weightShape.2) < 33 :=
  ⟨by decide, (create_weights_never_fails [4] 33).1,
   (create_weights_never_fails [4] 33).2 (by decide)⟩

/-- C5: for every partition list and every input size divisible by 2 and by
the block size 32, `create_weights` registers a packed weight of shape
`(sum output_partition_sizes, input_size / 2)` (exact: doubling recovers the
input size), a block scale of shape `(sum, input_size / 32)` (exact), and
records `logical_widths = output_partition_sizes`. -/
theorem create_weights_shapes (ops : List Nat) (n : Nat)
    (h2 : 2 ∣ n) (h32 : OCP_MX_BLOCK_SIZE ∣ n) :
    (create_weights ops n).logicalWidths = ops ∧
    (create_weights ops n).weightShape = (ops.sum, n / 2) ∧
    2 * (create_weights ops n).weightShape.2 = n ∧
    (create_weights ops n).weightScaleShape = (ops.sum, n / OCP_MX_BLOCK_SIZE) ∧
    OCP_MX_BLOCK_SIZE * (create_weights ops n).weightScaleShape.2 = n := by
  refine ⟨rfl, rfl, ?_, rfl, ?_⟩
  · exact Nat.mul_div_cancel' h2
  · exact Nat.mul_div_cancel' h32

/-- Witness for `create_weights_shapes` at `ops = [2, 3]`, `n = 64`. -/
theorem create_weights_shapes_witness :
    (2 ∣ 64 ∧ OCP_MX_BLOCK_SIZE ∣ 64) ∧
    ((create_weights [2, 3] 64).logicalWidths = [2, 3] ∧
     (create_weights [2, 3] 64).weightShape = ([2, 3].sum, 64 / 2) ∧
     2 * (create_weights [2, 3] 64).weightShape.2 = 64 ∧
     (create_weights [2, 3] 64).weightScaleShape =
       ([2, 3].sum, 64 / OCP_MX_BLOCK_SIZE) ∧
     OCP_MX_BLOCK_SIZE * (create_weights [2, 3] 64).weightScaleShape.2 = 64) :=
  ⟨⟨by decide, by decide⟩,
   create_weights_shapes [2, 3] 64 (by decide) (by decide)⟩

/-! ### Theorems: asm-kernel large-batch padding (C6) -/

/-- C6: in the asm path for batch size `M > 128`, the intermediate buffer has
`(M + 255) / 256 * 256` rows — the least multiple of 256 that is `≥ M` — and
the returned slice `y[:M]` has exactly `M` rows. -/
theorem asm_large_batch_padding (M : Nat) (_hM : 128 < M) :
    asmIntermediateRows M = (M + 255) / 256 * 256 ∧
    256 ∣ asmIntermediateRows M ∧
    M ≤ asmIntermediateRows M ∧
    asmIntermediateRows M < M + 256 ∧
    asmReturnedRows M = M := by
  refine ⟨rfl, ⟨(M + 255) / 256, Nat.mul_comm _ _⟩, ?_, ?_, ?_⟩
  · show M ≤ (M + 255) / 256 * 256
    omega
  · show (M + 255) / 256 * 256 < M + 256
    omega
  · show min M ((M + 255) / 256 * 256) = M
    omega

/-- Witness for `asm_large_batch_padding` at `M = 200`: the intermediate
buffer has 256 rows and the returned matrix has 200 rows. -/
theorem asm_large_batch_padding_witness :
    (128 < 200) ∧
    (asmIntermediateRows 200 = (200 + 255) / 256 * 256 ∧
     256 ∣ asmIntermediateRows 200 ∧
     200 ≤ asmIntermediateRows 200 ∧
     asmIntermediateRows 200 < 200 + 256 ∧
     asmReturnedRows 200 = 200) ∧
    asmIntermediateRows 200 = 256 :=
  ⟨by decide, asm_large_batch_padding 200 (by decide), by decide⟩

/-! ### Theorems: asm-kernel mid-batch reshape guard (C9) -/

/-- The 2-d view `(m, n) → (m / 32, n * 32)` succeeds iff `32 ∣ m`
(for `n > 0`). -/
theorem torchView2_div32 (m n : Nat) (hn : 0 < n) :
    (torchView2 m n (m / 32) (n * 32)).isSome ↔ 32 ∣ m := by
  unfold torchView2
  rcases Nat.decEq (m * n) (m / 32 * (n * 32)) with h | h
  · simp only [if_neg h, Option.isSome_none, Bool.false_eq_true, false_iff]
    intro hd
    exact h (by rw [Nat.mul_comm n 32, ← Nat.mul_assoc, Nat.div_mul_cancel hd])
  · simp only [if_pos h, Option.isSome_some, true_iff]
    have h2 : m * n = m / 32 * 32 * n := by
      rw [h, Nat.mul_comm n 32, Nat.mul_assoc]
    have h3 : m = m / 32 * 32 := Nat.eq_of_mul_eq_mul_right hn h2
    exact ⟨m / 32, h3.trans (Nat.mul_comm _ _)⟩

/-- C9: in the asm branch for `32 ≤ M ≤ 128`, the unguarded reshapes of the
activation-scale matrix `(sm, sn) → (sm/32, sn*32)` and the weight-scale
matrix `(smw, snw) → (smw/32, snw*32)` both succeed exactly when the two
scale row counts are multiples of 32; any batch whose activation-scale row
count is not a multiple of 32 makes the call fail. -/
theorem asm_mid_batch_reshape_guard (M sm sn smw snw : Nat)
    (hM : 32 ≤ M) (_hMhi : M ≤ 128) (hsn : 0 < sn) (hsnw : 0 < snw) :
    (asmMidBatchScaleViews M sm sn smw snw).isSome ↔
      32 ∣ sm ∧ 32 ∣ smw := by
  unfold asmMidBatchScaleViews
  rw [if_pos hM]
  constructor
  · intro h
    rcases hxs : torchView2 sm sn (sm / 32) (sn * 32) with _ | xs
    · rw [hxs] at h; simp at h
    · rcases hws : torchView2 smw snw (smw / 32) (snw * 32) with _ | ws
      · rw [hxs, hws] at h; simp at h
      · exact ⟨(torchView2_div32 sm sn hsn).1 (by rw [hxs]; rfl),
               (torchView2_div32 smw snw hsnw).1 (by rw [hws]; rfl)⟩
  · rintro ⟨h1, h2⟩
    have hxs := (torchView2_div32 sm sn hsn).2 h1
    have hws := (torchView2_div32 smw snw hsnw).2 h2
    rcases Option.isSome_iff_exists.1 hxs with ⟨xs, hxs'⟩
    rcases Option.isSome_iff_exists.1 hws with ⟨ws, hws'⟩
    rw [hxs', hws']
    rfl

/-- Witness for `asm_mid_batch_reshape_guard` at `M = 64`, activation-scale
shape `(33, 1)` (row count not a multiple of 32), weight-scale shape
`(32, 1)`: the reshape fails. -/
theorem asm_mid_batch_reshape_guard_witness :
    (32 ≤ 64 ∧ 64 ≤ 128 ∧ 0 < 1) ∧
    ¬ (asmMidBatchScaleViews 64 33 1 32 1).isSome :=
  ⟨⟨by decide, by decide, by decide⟩,
   fun h => by
     have := (asm_mid_batch_reshape_guard 64 33 1 32 1 (by decide) (by decide)
       (by decide) (by decide)).1 h
     exact absurd this.1 (by decide)⟩

/-! ### Theorems: emulate forward pass (C1) -/

/-- C1: for every activation matrix `x` (and arbitrary implementations of
the imported codec functions), the emulate branch of `apply_weights` returns
exactly `F.linear(quant_dequant_mxfp4(x), dequant_mxfp4(weight,
weight_scale, x.dtype), bias)`; and whenever the codecs meet the spec's
shape contract (round-trip preserves the activation shape, dequantization
unpacks two 4-bit codes per byte) with a `(4, 4)`-byte packed weight
(logical `(4, 8)`), scale shape `(4, 2)` (block size 4), and a `(2, 8)`
activation batch, the result equals the reference dense matmul of the
dequantized weight against the quantize-dequantized activations plus bias,
and has shape `(2, 4)`. -/
theorem apply_weights_emulate_reference :
    (∀ (dq : Mat → Mat → Mat) (qd : Mat → Mat) (w s x : Mat)
        (bias : Option (Nat → ℚ)),
      apply_weights_emulate dq qd w s x bias =
        Flinear (qd x) (dq w s) bias) ∧
    (∀ (dq : Mat → Mat → Mat) (qd : Mat → Mat) (w s x : Mat)
        (bias : Option (Nat → ℚ)),
      (qd x).rows = x.rows → (qd x).cols = x.cols →
      (dq w s).rows = w.rows → (dq w s).cols = 2 * w.cols →
      w.rows = 4 → w.cols = 4 → s.rows = 4 → s.cols = 2 →
      x.rows = 2 → x.cols = 8 →
      apply_weights_emulate dq qd w s x bias =
        referenceEmulateOutput dq qd w s x bias ∧
      (apply_weights_emulate dq qd w s x bias).rows = 2 ∧
      (apply_weights_emulate dq qd w s x bias).cols = 4 ∧
      (dq w s).cols = 8) := by
  constructor
  · intro dq qd w s x bias
    rfl
  · intro dq qd w s x bias hqdr hqdc hdqr hdqc hwr hwc hsr hsc hxr hxc
    refine ⟨?_, ?_, ?_, ?_⟩
    · refine Mat.ext_eq _ _ hqdr rfl ?_
      funext i j
      show (∑ k ∈ Finset.range (qd x).cols,
              (qd x).entry i k * (dq w s).entry j k) +
            bias.elim 0 (fun b => b j) =
          (∑ k ∈ Finset.range x.cols,
              (qd x).entry i k * (dq w s).entry j k) +
            bias.elim 0 (fun b => b j)
      rw [hqdc]
    · show (qd x).rows = 2
      rw [hqdr, hxr]
    · show (dq w s).rows = 4
      rw [hdqr, hwr]
    · rw [hdqc, hwc]

/-- Codec stand-in for the witness: a dequantizer meeting the spec's shape
contract (two codes per byte). -/
def dqWitness : Mat → Mat → Mat := fun w _ =>
  { rows := w.rows, cols := 2 * w.cols, entry := fun _ _ => 1 }

/-- Codec stand-in for the witness: a shape-preserving activation
round-trip. -/
def qdWitness : Mat → Mat := fun x => x

/-- Witness packed weight, `(4, 4)` bytes. -/
def wWitness : Mat := { rows := 4, cols := 4, entry := fun _ _ => 0 }

/-- Witness block scale, `(4, 2)`. -/
def sWitness : Mat := { rows := 4, cols := 2, entry := fun _ _ => 0 }

/-- Witness activation batch, `(2, 8)`. -/
def xWitness : Mat := { rows := 2, cols := 8, entry := fun _ _ => 0 }

/-- Witness for `apply_weights_emulate_reference` at the concrete codecs and
shapes above. -/
theorem apply_weights_emulate_reference_witness :
    ((qdWitness xWitness).rows = xWitness.rows ∧
     (qdWitness xWitness).cols = xWitness.cols ∧
     (dqWitness wWitness sWitness).rows = wWitness.rows ∧
     (dqWitness wWitness sWitness).cols = 2 * wWitness.cols ∧
     wWitness.rows = 4 ∧ wWitness.cols = 4 ∧
     sWitness.rows = 4 ∧ sWitness.cols = 2 ∧
     xWitness.rows = 2 ∧ xWitness.cols = 8) ∧
    (apply_weights_emulate dqWitness qdWitness wWitness sWitness xWitness
        none =
      referenceEmulateOutput dqWitness qdWitness wWitness sWitness xWitness
        none ∧
     (apply_weights_emulate dqWitness qdWitness wWitness sWitness xWitness
        none).rows = 2 ∧
     (apply_weights_emulate dqWitness qdWitness wWitness sWitness xWitness
        none).cols = 4 ∧
     (dqWitness wWitness sWitness).cols = 8) :=
  ⟨⟨rfl, rfl, rfl, rfl, rfl, rfl, rfl, rfl, rfl, rfl⟩,
   apply_weights_emulate_reference.2 dqWitness qdWitness wWitness sWitness
     xWitness none rfl rfl rfl rfl rfl rfl rfl rfl rfl rfl⟩

/-! ### Theorems: construction and missing aiter bindings (C8) -/

/-- C8: on a platform with `supports_mx() = true` and the aiter import
failed, construction raises `NameError` (the unbound `VLLM_QUARK_EMU_MEM_OPT`
at line 44), not the `NotImplementedError` naming AITER claimed by the spec;
that `NotImplementedError` (lines 48-51) is unreachable for every input,
because a successful import leaves no binding `None` and a failed import
always triggers the `NameError` first. Construction does succeed without the
bindings when `supports_mx()` is false (short-circuit to emulate mode). -/
theorem schemeInit_missing_aiter :
    schemeInit true .failed = .nameError ∧
    (∀ (s : Bool) (imp : ImportOutcome),
      schemeInit s imp ≠ .aiterNotImplemented) ∧
    schemeInit false .failed = .success true := by
  refine ⟨rfl, ?_, rfl⟩
  intro s imp h
  cases imp with
  | failed => cases s <;> simp [schemeInit] at h
  | ok m a => cases s <;> cases m <;> simp [schemeInit] at h

/-! ### Theorems: post-load state in emulate mode (C4) -/

/-- C4 counterexample: with the memory-optimization flag unset, the
post-load transform replaces the packed weight by the materialized
dequantized weight but does not discard the raw `weight_scale` parameter
(the `layer.weight_scale = None` line is commented out): the scale is still
`some rawScale` afterwards, contradicting the claim that it is discarded
(freed). -/
theorem processEmulate_scale_not_discarded :
    (processEmulate false loadedState).weight =
      .quantizerApplied .packedWeight ∧
    (processEmulate false loadedState).weightScale = some .rawScale := by
  exact ⟨rfl, rfl⟩

/-- C4 amended: after the post-load transform in emulate mode, exactly one
of {resolved dequantized weight, lazy quantizer} is present — resolved
weight and no quantizer when the flag is unset, packed weight plus stored
quantizer when it is set — but the raw `weight_scale` parameter is retained
in both cases rather than discarded (only `torch.cuda.empty_cache()` is
called; the deleting line is commented out). -/
theorem processEmulate_state_invariant :
    (hasResolvedWeight (processEmulate false loadedState) = true ∧
     (processEmulate false loadedState).weightQuantizer = none ∧
     hasLazyQuantizerAndScale (processEmulate false loadedState) = false ∧
     (processEmulate false loadedState).weightScale = some .rawScale) ∧
    (hasResolvedWeight (processEmulate true loadedState) = false ∧
     hasLazyQuantizerAndScale (processEmulate true loadedState) = true ∧
     (processEmulate true loadedState).weight = .packedWeight ∧
     (processEmulate true loadedState).weightScale = some .rawScale) := by
  decide

/-! ### Theorems: forward recomputation in emulate mode (C10) -/

/-- C10: for either value of the memory-optimization flag, the emulated
forward pass recomputes `dequant_mxfp4(layer.weight, layer.weight_scale,
x.dtype)`: with the flag set it dequantizes the packed weight without ever
invoking the stored lazy quantizer (the result expression is independent of
the `weightQuantizer` field), and with the flag unset the weight already
materialized by the post-load transform is passed through `dequant_mxfp4`
again instead of being used directly. -/
theorem applyWeightsEmulate_recomputes_dequant :
    ∀ bias : Option MatExpr,
      (applyWeightsEmulateTrace (processEmulate true loadedState) bias =
        some (.linearF (.quantDequant .input)
          (.dequant (.tensor .packedWeight) (.tensor .rawScale)) bias)) ∧
      (applyWeightsEmulateTrace (processEmulate false loadedState) bias =
        some (.linearF (.quantDequant .input)
          (.dequant (.tensor (.quantizerApplied .packedWeight))
            (.tensor .rawScale)) bias)) ∧
      (∀ (l : EmulateState) (q : Option TensorVal),
        applyWeightsEmulateTrace
          { weight := l.weight, weightScale := l.weightScale,
            weightQuantizer := q } bias =
        applyWeightsEmulateTrace l bias) := by
  intro bias
  exact ⟨rfl, rfl, fun l q => rfl⟩

/-! ### Theorems: scale block-shuffle permutation (C7) -/

/-- Extracting the quotient digit from a mixed-radix decomposition. -/
theorem extract_div {b x r : Nat} (hb : 0 < b) (hr : r < b) :
    (b * x + r) / b = x := by
  rw [Nat.mul_add_div hb, Nat.div_eq_of_lt hr, Nat.add_zero]

/-- Extracting the remainder digit from a mixed-radix decomposition. -/
theorem extract_mod {b x r : Nat} (hr : r < b) : (b * x + r) % b = r := by
  rw [Nat.mul_add_mod, Nat.mod_eq_of_lt hr]

/-- The low part of an original-layout flat index is below the row
stride. -/
theorem src_inner_lt (q a1 a2 a3 a4 a5 : Nat) (h1 : a1 < 2) (h2 : a2 < 16)
    (h3 : a3 < q) (h4 : a4 < 2) (h5 : a5 < 4) :
    128 * q * a1 + 8 * q * a2 + 8 * a3 + 4 * a4 + a5 < 256 * q := by
  have t1 : 128 * q * a1 ≤ 128 * q * 1 := mul_le_mul_left' (by omega) _
  have t2 : 8 * q * a2 ≤ 8 * q * 15 := mul_le_mul_left' (by omega) _
  have t1e : 128 * q * 1 = 128 * q := by ring
  have t2e : 8 * q * 15 = 120 * q := by ring
  have t3 : 8 * a3 + 4 * a4 + a5 < 8 * q := by omega
  linarith

/-- Digit extraction for an original-layout flat index
`f = 256q·a0 + 128q·a1 + 8q·a2 + 8·a3 + 4·a4 + a5`. -/
theorem src_digits (q a0 a1 a2 a3 a4 a5 f : Nat) (hq : 0 < q)
    (h1 : a1 < 2) (h2 : a2 < 16) (h3 : a3 < q) (h4 : a4 < 2) (h5 : a5 < 4)
    (hf : f = 256 * q * a0 + 128 * q * a1 + 8 * q * a2 + 8 * a3 + 4 * a4
      + a5) :
    f / (256 * q) = a0 ∧ f % (256 * q) / (128 * q) = a1 ∧
    f % (128 * q) / (8 * q) = a2 ∧ f % (8 * q) / 8 = a3 ∧
    f % 8 / 4 = a4 ∧ f % 4 = a5 := by
  subst hf
  have hq256 : 0 < 256 * q := by positivity
  have hq128 : 0 < 128 * q := by positivity
  have hq8 : 0 < 8 * q := by positivity
  have hc : 8 * a3 + 4 * a4 + a5 < 8 * q := by omega
  have hb : 8 * q * a2 + (8 * a3 + 4 * a4 + a5) < 128 * q := by
    have t2 : 8 * q * a2 ≤ 8 * q * 15 := mul_le_mul_left' (by omega) _
    have t2e : 8 * q * 15 = 120 * q := by ring
    linarith
  have ha : 128 * q * a1 + (8 * q * a2 + (8 * a3 + 4 * a4 + a5)) <
      256 * q := by
    have t1 : 128 * q * a1 ≤ 128 * q * 1 := mul_le_mul_left' (by omega) _
    have t1e : 128 * q * 1 = 128 * q := by ring
    linarith
  refine ⟨?_, ?_, ?_, ?_, ?_, ?_⟩
  · have hre : 256 * q * a0 + 128 * q * a1 + 8 * q * a2 + 8 * a3 + 4 * a4
        + a5 =
        256 * q * a0 +
          (128 * q * a1 + (8 * q * a2 + (8 * a3 + 4 * a4 + a5))) := by ring
    rw [hre, extract_div hq256 ha]
  · have hre : 256 * q * a0 + 128 * q * a1 + 8 * q * a2 + 8 * a3 + 4 * a4
        + a5 =
        256 * q * a0 +
          (128 * q * a1 + (8 * q * a2 + (8 * a3 + 4 * a4 + a5))) := by ring
    rw [hre, extract_mod ha, extract_div hq128 hb]
  · have hre : 256 * q * a0 + 128 * q * a1 + 8 * q * a2 + 8 * a3 + 4 * a4
        + a5 =
        128 * q * (2 * a0 + a1) +
          (8 * q * a2 + (8 * a3 + 4 * a4 + a5)) := by ring
    rw [hre, extract_mod hb, extract_div hq8 hc]
  · have hre : 256 * q * a0 + 128 * q * a1 + 8 * q * a2 + 8 * a3 + 4 * a4
        + a5 =
        8 * q * (32 * a0 + 16 * a1 + a2) + (8 * a3 + 4 * a4 + a5) := by
      ring
    rw [hre, extract_mod hc]
    omega
  · have hre : 256 * q * a0 + 128 * q * a1 + 8 * q * a2 + 8 * a3 + 4 * a4
        + a5 =
        8 * (32 * q * a0 + 16 * q * a1 + q * a2 + a3) + (4 * a4 + a5) := by
      ring
    rw [hre, extract_mod (show 4 * a4 + a5 < 8 by omega)]
    omega
  · have hre : 256 * q * a0 + 128 * q * a1 + 8 * q * a2 + 8 * a3 + 4 * a4
        + a5 =
        4 * (64 * q * a0 + 32 * q * a1 + 2 * q * a2 + 2 * a3 + a4) + a5 := by
      ring
    rw [hre, extract_mod h5]

/-- Digit extraction for a shuffled-layout flat index
`g = 256q·b0 + 256·b3 + 64·b5 + 4·b2 + 2·b4 + b1`. -/
theorem dst_digits (q b0 b1 b2 b3 b4 b5 g : Nat) (hq : 0 < q)
    (h1 : b1 < 2) (h2 : b2 < 16) (h3 : b3 < q) (h4 : b4 < 2) (h5 : b5 < 4)
    (hg : g = 256 * q * b0 + 256 * b3 + 64 * b5 + 4 * b2 + 2 * b4 + b1) :
    g / (256 * q) = b0 ∧ g % (256 * q) / 256 = b3 ∧ g % 256 / 64 = b5 ∧
    g % 64 / 4 = b2 ∧ g % 4 / 2 = b4 ∧ g % 2 = b1 := by
  subst hg
  have hq256 : 0 < 256 * q := by positivity
  have hin : 256 * b3 + 64 * b5 + 4 * b2 + 2 * b4 + b1 < 256 * q := by
    omega
  refine ⟨?_, ?_, ?_, ?_, ?_, ?_⟩
  · have hre : 256 * q * b0 + 256 * b3 + 64 * b5 + 4 * b2 + 2 * b4 + b1 =
        256 * q * b0 + (256 * b3 + 64 * b5 + 4 * b2 + 2 * b4 + b1) := by
      ring
    rw [hre, extract_div hq256 hin]
  · have hre : 256 * q * b0 + 256 * b3 + 64 * b5 + 4 * b2 + 2 * b4 + b1 =
        256 * q * b0 + (256 * b3 + 64 * b5 + 4 * b2 + 2 * b4 + b1) := by
      ring
    rw [hre, extract_mod hin]
    omega
  · have hre : 256 * q * b0 + 256 * b3 + 64 * b5 + 4 * b2 + 2 * b4 + b1 =
        256 * (q * b0 + b3) + (64 * b5 + 4 * b2 + 2 * b4 + b1) := by ring
    rw [hre, extract_mod (show 64 * b5 + 4 * b2 + 2 * b4 + b1 < 256 by
      omega)]
    omega
  · have hre : 256 * q * b0 + 256 * b3 + 64 * b5 + 4 * b2 + 2 * b4 + b1 =
        64 * (4 * (q * b0) + 4 * b3 + b5) + (4 * b2 + 2 * b4 + b1) := by
      ring
    rw [hre, extract_mod (show 4 * b2 + 2 * b4 + b1 < 64 by omega)]
    omega
  · have hre : 256 * q * b0 + 256 * b3 + 64 * b5 + 4 * b2 + 2 * b4 + b1 =
        4 * (64 * (q * b0) + 64 * b3 + 16 * b5 + b2) + (2 * b4 + b1) := by
      ring
    rw [hre, extract_mod (show 2 * b4 + b1 < 4 by omega)]
    omega
  · have hre : 256 * q * b0 + 256 * b3 + 64 * b5 + 4 * b2 + 2 * b4 + b1 =
        2 * (128 * (q * b0) + 128 * b3 + 32 * b5 + 2 * b2 + b4) + b1 := by
      ring
    rw [hre, extract_mod h1]

/-- Applying the shuffle then the inverse map returns every flat index. -/
theorem shuffleDst_shuffleSrc (q g : Nat) (hq : 0 < q) :
    shuffleDst q (shuffleSrc q g) = g := by
  have hq256 : 0 < 256 * q := by positivity
  have hmm : g % (256 * q) % 256 = g % 256 :=
    Nat.mod_mod_of_dvd g ⟨q, rfl⟩
  have hmlt : g % (256 * q) < 256 * q := Nat.mod_lt g hq256
  have ha3lt : g % (256 * q) / 256 < q := by omega
  obtain ⟨e0, e1, e2, e3, e4, e5⟩ :=
    src_digits q (g / (256 * q)) (g % 2) (g % 64 / 4)
      (g % (256 * q) / 256) (g % 4 / 2) (g % 256 / 64) (shuffleSrc q g) hq
      (by omega) (by omega) ha3lt (by omega) (by omega) rfl
  show 256 * q * (shuffleSrc q g / (256 * q)) +
      256 * (shuffleSrc q g % (8 * q) / 8) + 64 * (shuffleSrc q g % 4) +
      4 * (shuffleSrc q g % (128 * q) / (8 * q)) +
      2 * (shuffleSrc q g % 8 / 4) +
      shuffleSrc q g % (256 * q) / (128 * q) = g
  rw [e0, e1, e2, e3, e4, e5]
  have hg1 : 256 * q * (g / (256 * q)) + g % (256 * q) = g :=
    Nat.div_add_mod g (256 * q)
  have key : 256 * (g % (256 * q) / 256) + 64 * (g % 256 / 64) +
      4 * (g % 64 / 4) + 2 * (g % 4 / 2) + g % 2 = g % (256 * q) := by
    generalize g % (256 * q) = r1 at hmm ha3lt hmlt ⊢
    omega
  calc 256 * q * (g / (256 * q)) + 256 * (g % (256 * q) / 256) +
        64 * (g % 256 / 64) + 4 * (g % 64 / 4) + 2 * (g % 4 / 2) + g % 2
      = 256 * q * (g / (256 * q)) +
          (256 * (g % (256 * q) / 256) + 64 * (g % 256 / 64) +
            4 * (g % 64 / 4) + 2 * (g % 4 / 2) + g % 2) := by ring
    _ = 256 * q * (g / (256 * q)) + g % (256 * q) := by rw [key]
    _ = g := hg1

/-- Applying the inverse map then the shuffle returns every flat index. -/
theorem shuffleSrc_shuffleDst (q f : Nat) (hq : 0 < q) :
    shuffleSrc q (shuffleDst q f) = f := by
  have hq256 : 0 < 256 * q := by positivity
  have hq128 : 0 < 128 * q := by positivity
  have hq8 : 0 < 8 * q := by positivity
  have hmmA : f % (256 * q) % (128 * q) = f % (128 * q) :=
    Nat.mod_mod_of_dvd f ⟨2, by ring⟩
  have hmmB : f % (128 * q) % (8 * q) = f % (8 * q) :=
    Nat.mod_mod_of_dvd f ⟨16, by ring⟩
  have hmmC : f % (8 * q) % 8 = f % 8 := Nat.mod_mod_of_dvd f ⟨q, rfl⟩
  have hb1 : f % (256 * q) / (128 * q) < 2 := by
    rw [Nat.div_lt_iff_lt_mul hq128]
    exact lt_of_lt_of_eq (Nat.mod_lt f hq256) (by ring)
  have hb2 : f % (128 * q) / (8 * q) < 16 := by
    rw [Nat.div_lt_iff_lt_mul hq8]
    exact lt_of_lt_of_eq (Nat.mod_lt f hq128) (by ring)
  have hb3 : f % (8 * q) / 8 < q := by
    rw [Nat.div_lt_iff_lt_mul (by norm_num : (0 : Nat) < 8)]
    exact lt_of_lt_of_eq (Nat.mod_lt f hq8) (by ring)
  obtain ⟨e0, e3, e5, e2, e4, e1⟩ :=
    dst_digits q (f / (256 * q)) (f % (256 * q) / (128 * q))
      (f % (128 * q) / (8 * q)) (f % (8 * q) / 8) (f % 8 / 4) (f % 4)
      (shuffleDst q f) hq hb1 hb2 hb3 (by omega) (by omega) rfl
  show 256 * q * (shuffleDst q f / (256 * q)) +
      128 * q * (shuffleDst q f % 2) +
      8 * q * (shuffleDst q f % 64 / 4) +
      8 * (shuffleDst q f % (256 * q) / 256) +
      4 * (shuffleDst q f % 4 / 2) + shuffleDst q f % 256 / 64 = f
  rw [e0, e1, e2, e3, e4, e5]
  have hA : 256 * q * (f / (256 * q)) + f % (256 * q) = f :=
    Nat.div_add_mod f (256 * q)
  have hB : 128 * q * (f % (256 * q) / (128 * q)) + f % (128 * q) =
      f % (256 * q) := by
    have h := Nat.div_add_mod (f % (256 * q)) (128 * q)
    rw [hmmA] at h
    exact h
  have hC : 8 * q * (f % (128 * q) / (8 * q)) + f % (8 * q) =
      f % (128 * q) := by
    have h := Nat.div_add_mod (f % (128 * q)) (8 * q)
    rw [hmmB] at h
    exact h
  have hD : 8 * (f % (8 * q) / 8) + f % 8 = f % (8 * q) := by
    have h := Nat.div_add_mod (f % (8 * q)) 8
    rw [hmmC] at h
    exact h
  have hE : 4 * (f % 8 / 4) + f % 4 = f % 8 := by omega
  calc 256 * q * (f / (256 * q)) +
        128 * q * (f % (256 * q) / (128 * q)) +
        8 * q * (f % (128 * q) / (8 * q)) + 8 * (f % (8 * q) / 8) +
        4 * (f % 8 / 4) + f % 4
      = 256 * q * (f / (256 * q)) +
          (128 * q * (f % (256 * q) / (128 * q)) +
            (8 * q * (f % (128 * q) / (8 * q)) +
              (8 * (f % (8 * q) / 8) + (4 * (f % 8 / 4) + f % 4)))) := by
        ring
    _ = f := by rw [hE, hD, hC, hB, hA]

/-- The shuffle maps the flat index range of a `(32p, 8q)` matrix into
itself. -/
theorem shuffleSrc_lt (q p g : Nat) (hq : 0 < q) (hg : g < 256 * p * q) :
    shuffleSrc q g < 256 * p * q := by
  have hq256 : 0 < 256 * q := by positivity
  have hmlt : g % (256 * q) < 256 * q := Nat.mod_lt g hq256
  have hmm : g % (256 * q) % 256 = g % 256 :=
    Nat.mod_mod_of_dvd g ⟨q, rfl⟩
  have ha3lt : g % (256 * q) / 256 < q := by omega
  have ha0 : g / (256 * q) < p := by
    rw [Nat.div_lt_iff_lt_mul hq256]
    exact lt_of_lt_of_eq hg (by ring)
  have hinner := src_inner_lt q (g % 2) (g % 64 / 4)
    (g % (256 * q) / 256) (g % 4 / 2) (g % 256 / 64) (by omega) (by omega)
    ha3lt (by omega) (by omega)
  have hsplit : shuffleSrc q g =
      256 * q * (g / (256 * q)) +
        (128 * q * (g % 2) + 8 * q * (g % 64 / 4) +
          8 * (g % (256 * q) / 256) + 4 * (g % 4 / 2) + g % 256 / 64) := by
    show 256 * q * (g / (256 * q)) + 128 * q * (g % 2) +
        8 * q * (g % 64 / 4) + 8 * (g % (256 * q) / 256) +
        4 * (g % 4 / 2) + g % 256 / 64 = _
    ring
  have hstep : shuffleSrc q g < 256 * q * (g / (256 * q) + 1) := by
    rw [hsplit]
    have : 256 * q * (g / (256 * q) + 1) =
        256 * q * (g / (256 * q)) + 256 * q := by ring
    rw [this]
    exact Nat.add_lt_add_left hinner _
  have hmono : 256 * q * (g / (256 * q) + 1) ≤ 256 * q * p :=
    mul_le_mul_left' (by omega) _
  have hfin : 256 * q * p = 256 * p * q := by ring
  exact lt_of_lt_of_le hstep (le_trans hmono (le_of_eq hfin))

/-- The inverse shuffle maps the flat index range of a `(32p, 8q)` matrix
into itself. -/
theorem shuffleDst_lt (q p f : Nat) (hq : 0 < q) (hf : f < 256 * p * q) :
    shuffleDst q f < 256 * p * q := by
  have hq256 : 0 < 256 * q := by positivity
  have hq128 : 0 < 128 * q := by positivity
  have hq8 : 0 < 8 * q := by positivity
  have hb1 : f % (256 * q) / (128 * q) < 2 := by
    rw [Nat.div_lt_iff_lt_mul hq128]
    exact lt_of_lt_of_eq (Nat.mod_lt f hq256) (by ring)
  have hb2 : f % (128 * q) / (8 * q) < 16 := by
    rw [Nat.div_lt_iff_lt_mul hq8]
    exact lt_of_lt_of_eq (Nat.mod_lt f hq128) (by ring)
  have hb3 : f % (8 * q) / 8 < q := by
    rw [Nat.div_lt_iff_lt_mul (by norm_num : (0 : Nat) < 8)]
    exact lt_of_lt_of_eq (Nat.mod_lt f hq8) (by ring)
  have hb0 : f / (256 * q) < p := by
    rw [Nat.div_lt_iff_lt_mul hq256]
    exact lt_of_lt_of_eq hf (by ring)
  have hsmall : 64 * (f % 4) + 4 * (f % (128 * q) / (8 * q)) +
      2 * (f % 8 / 4) + f % (256 * q) / (128 * q) < 256 := by
    have c1 : f % 4 < 4 := by omega
    have c2 : f % 8 / 4 < 2 := by omega
    linarith
  have hinner : 256 * (f % (8 * q) / 8) + 64 * (f % 4) +
      4 * (f % (128 * q) / (8 * q)) + 2 * (f % 8 / 4) +
      f % (256 * q) / (128 * q) < 256 * q := by
    have s1 : 256 * (f % (8 * q) / 8) + 64 * (f % 4) +
        4 * (f % (128 * q) / (8 * q)) + 2 * (f % 8 / 4) +
        f % (256 * q) / (128 * q) < 256 * (f % (8 * q) / 8 + 1) := by
      have : 256 * (f % (8 * q) / 8 + 1) =
          256 * (f % (8 * q) / 8) + 256 := by ring
      rw [this]
      have := hsmall
      linarith
    have s2 : 256 * (f % (8 * q) / 8 + 1) ≤ 256 * q :=
      mul_le_mul_left' (by omega) _
    exact lt_of_lt_of_le s1 s2
  have hsplit : shuffleDst q f =
      256 * q * (f / (256 * q)) +
        (256 * (f % (8 * q) / 8) + 64 * (f % 4) +
          4 * (f % (128 * q) / (8 * q)) + 2 * (f % 8 / 4) +
          f % (256 * q) / (128 * q)) := by
    show 256 * q * (f / (256 * q)) + 256 * (f % (8 * q) / 8) +
        64 * (f % 4) + 4 * (f % (128 * q) / (8 * q)) + 2 * (f % 8 / 4) +
        f % (256 * q) / (128 * q) = _
    ring
  have hstep : shuffleDst q f < 256 * q * (f / (256 * q) + 1) := by
    rw [hsplit]
    have : 256 * q * (f / (256 * q) + 1) =
        256 * q * (f / (256 * q)) + 256 * q := by ring
    rw [this]
    exact Nat.add_lt_add_left hinner _
  have hmono : 256 * q * (f / (256 * q) + 1) ≤ 256 * q * p :=
    mul_le_mul_left' (by omega) _
  have hfin : 256 * q * p = 256 * p * q := by ring
  exact lt_of_lt_of_le hstep (le_trans hmono (le_of_eq hfin))

/-- C7: the block-shuffle scale permutation — view as
`(rows/32, 2, 16, cols/8, 2, 4, 1)`, permute the axes to
`(0, 3, 5, 2, 4, 1, 6)`, flatten back to `(rows, cols)` — is a bijection on
matrix entries for every column count `8 * q` (`q > 0`): the flat index map
is bijective, it maps the index range of every `(32p, 8q)` matrix (hence of
a `(64, 64)` matrix, `p = 2`, `q = 8`) onto itself in both directions, and
composing the shuffle with its inverse in either order returns the original
matrix unchanged. -/
theorem scale_shuffle_bijection (q : Nat) (hq : 0 < q) :
    Function.Bijective (shuffleSrc q) ∧
    (∀ p g, g < 256 * p * q → shuffleSrc q g < 256 * p * q) ∧
    (∀ p f, f < 256 * p * q → shuffleDst q f < 256 * p * q) ∧
    (∀ (α : Type) (A : Nat → α), unshuffleScale q (shuffleScale q A) = A) ∧
    (∀ (α : Type) (A : Nat → α), shuffleScale q (unshuffleScale q A) = A) := by
  refine ⟨?_, ?_, ?_, ?_, ?_⟩
  · exact Function.bijective_iff_has_inverse.mpr
      ⟨shuffleDst q, fun g => shuffleDst_shuffleSrc q g hq,
        fun f => shuffleSrc_shuffleDst q f hq⟩
  · exact fun p g hg => shuffleSrc_lt q p g hq hg
  · exact fun p f hf => shuffleDst_lt q p f hq hf
  · intro α A
    funext f
    show A (shuffleSrc q (shuffleDst q f)) = A f
    rw [shuffleSrc_shuffleDst q f hq]
  · intro α A
    funext g
    show A (shuffleDst q (shuffleSrc q g)) = A g
    rw [shuffleDst_shuffleSrc q g hq]

/-- Witness for `scale_shuffle_bijection` on a `(64, 64)` matrix
(`p = 2`, `q = 8`): both composites are the identity and the index `100`
stays in range. -/
theorem scale_shuffle_bijection_witness :
    (0 < 8) ∧
    unshuffleScale 8 (shuffleScale 8 (fun n : Nat => n)) = (fun n => n) ∧
    shuffleScale 8 (unshuffleScale 8 (fun n : Nat => n)) = (fun n => n) ∧
    shuffleSrc 8 100 < 256 * 2 * 8 :=
  ⟨by decide,
   (scale_shuffle_bijection 8 (by decide)).2.2.2.1 Nat (fun n => n),
   (scale_shuffle_bijection 8 (by decide)).2.2.2.2 Nat (fun n => n),
   (scale_shuffle_bijection 8 (by decide)).2.1 2 100 (by decide)⟩

end QuarkW4A4MXFP4
